import Mathlib

/-!
# Verification of the twisted Hessian curve arithmetic stack (hessian-rs)

Shallow embedding of the library's four layers — the prime field `Fq`,
the dual-number ring `R = Fq[ε]/(ε²)`, projective points on the twisted
Hessian curve `aX³ + Y³ + Z³ = dXYZ` over `R`, and the curve object —
translated from `src/field.rs`, `src/ring.rs`, `src/projective.rs` and
`src/curve.rs`.

Modelling conventions:
* A field element is its `u64` value, a `Nat` kept in `[0, q)` by the
  operations. A ring element `a + bε` is the pair `(a, b)`.
* Rust `assert!`/`panic!`/`expect` failures are `none` in an `Option`
  result; functions that cannot fail stay total.
* Checked 64-bit arithmetic is modelled as exact `Nat`/`Int` arithmetic:
  the spec (§4.1 error policy) restricts use to moduli with `q² < 2⁶³`,
  where the `checked_*` calls never fail.  The `i64::MAX` bounds that are
  part of a function's own contract (`Fq::new`) are modelled explicitly.
-/

namespace Hessian

/-! ## Layer 1: the prime field `Fq` (src/field.rs) -/

/-- `Fq::new` after its asserts: reduce the value mod `Q` (field.rs:17-27). -/
def Fq.new (q v : Nat) : Nat := v % q

/-- `Fq::new` with its asserts: rejects `Q ≤ 1`, `Q ≥ i64::MAX` and
`value ≥ i64::MAX`, where `i64::MAX = 2^63 - 1` (field.rs:17-27). -/
def Fq.mk (q v : Nat) : Option Nat :=
  if q ≤ 1 then none
  else if 2 ^ 63 - 1 ≤ q then none
  else if 2 ^ 63 - 1 ≤ v then none
  else some (Fq.new q v)

/-- Field addition (field.rs:121-129). -/
def Fq.add (q x y : Nat) : Nat := Fq.new q (x + y)

/-- Field subtraction: signed difference, one conditional `+ q`, then
`Fq::new` (field.rs:140-151). -/
def Fq.sub (q x y : Nat) : Nat := Fq.new q (if x < y then x + q - y else x - y)

/-- Field multiplication (field.rs:162-173). -/
def Fq.mul (q x y : Nat) : Nat := Fq.new q (x * y)

/-- The extended-Euclid loop of `Fq::inv` (field.rs:51-71).  State is
`(old_r, r, old_s, s, old_t, t)`; returns `(old_r, old_s)` when `r = 0`.
`old_r, r` stay non-negative so they are `Nat`; the Bézout coefficients
are `Int` as in the source (`i64`). -/
def egcdLoop (a b : Nat) (os s ot t : Int) : Nat × Int :=
  if h : b = 0 then (a, os)
  else egcdLoop b (a % b) s (os - (a / b : Nat) * s) t (ot - (a / b : Nat) * t)
termination_by b
decreasing_by exact Nat.mod_lt _ (Nat.pos_of_ne_zero h)

/-- `Fq::inv` (field.rs:40-84): fails on zero, runs the extended Euclid
loop with `old_r = value`, `r = Q`, `old_s = 1`, `s = 0`, `old_t = 0`,
`t = 1`, fails if the gcd is not 1, normalises `old_s` by `+ q` when
negative, and reduces via `Fq::new`. -/
def Fq.inv (q v : Nat) : Option Nat :=
  if v = 0 then none
  else if (egcdLoop v q 1 0 0 1).1 = 1 then
    some (Fq.new q (Int.toNat
      (if (egcdLoop v q 1 0 0 1).2 < 0 then (egcdLoop v q 1 0 0 1).2 + q
        else (egcdLoop v q 1 0 0 1).2)))
  else none

/-- The square-and-multiply loop of `Fq::pow` (field.rs:93-99). -/
def Fq.powAux (q result base exp : Nat) : Nat :=
  if exp = 0 then result
  else
    Fq.powAux q (if exp % 2 = 1 then Fq.mul q result base else result)
      (Fq.mul q base base) (exp / 2)
termination_by exp
decreasing_by exact Nat.div_lt_self (Nat.pos_of_ne_zero (by assumption)) one_lt_two

/-- `Fq::pow` (field.rs:87-102): accumulator starts at `Fq::new(1)`. -/
def Fq.pow (q v e : Nat) : Nat := Fq.powAux q (Fq.new q 1) v e

/-- `Fq::is_minus_three_square` (field.rs:105-118).  The source first
builds `Fq::new(Q - 3)` with `checked_sub` — which fails for `Q < 3`,
i.e. for the accepted modulus `Q = 2` — and only then tests evenness.
The modulus asserts of the inner `Fq::new` calls are modelled up front. -/
def Fq.isMinusThreeSquare (q : Nat) : Option Bool :=
  if q ≤ 1 then none
  else if 2 ^ 63 - 1 ≤ q then none
  else if q < 3 then none
  else if q % 2 = 0 then some false
  else some (decide (Fq.pow q (Fq.new q (q - 3)) ((q - 1) / 2) = 1))

/-! ## Layer 2: the dual-number ring `R = Fq[ε]/(ε²)` (src/ring.rs)

A ring element `a + bε` is the pair `(a, b)`. -/

/-- `RingElement::from_field` (ring.rs:20-22). -/
def Ring.fromField (q a : Nat) : Nat × Nat := (a, Fq.new q 0)

/-- `RingElement::is_invertible` (ring.rs:40-43): the constant part is
non-zero. -/
def Ring.isInvertible (r : Nat × Nat) : Bool := decide (r.1 ≠ 0)

/-- Componentwise addition (ring.rs:83-89). -/
def Ring.add (q : Nat) (r s : Nat × Nat) : Nat × Nat :=
  (Fq.add q r.1 s.1, Fq.add q r.2 s.2)

/-- Componentwise subtraction (ring.rs:92-98). -/
def Ring.sub (q : Nat) (r s : Nat × Nat) : Nat × Nat :=
  (Fq.sub q r.1 s.1, Fq.sub q r.2 s.2)

/-- `(a + bε)(c + dε) = ac + (ad + bc)ε` (ring.rs:101-113). -/
def Ring.mul (q : Nat) (r s : Nat × Nat) : Nat × Nat :=
  (Fq.mul q r.1 s.1, Fq.add q (Fq.mul q r.1 s.2) (Fq.mul q r.2 s.1))

/-- `RingElement::inv` (ring.rs:46-61): fails when not invertible, else
`(a⁻¹, Fq::new(Q - b·a⁻²))`.  The inner `Fq::inv` can itself fail when
`gcd(a, Q) ≠ 1` (non-prime modulus). -/
def Ring.inv (q : Nat) (r : Nat × Nat) : Option (Nat × Nat) :=
  if Ring.isInvertible r then
    match Fq.inv q r.1 with
    | none => none
    | some aInv =>
        some (aInv, Fq.new q (q - Fq.mul q r.2 (Fq.mul q aInv aInv)))
  else none

/-! ## Layer 3: projective points (src/projective.rs) -/

/-- A projective point `[X:Y:Z]` with coordinates in `R` (projective.rs:14-19). -/
structure Point where
  x : Nat × Nat
  y : Nat × Nat
  z : Nat × Nat
deriving DecidableEq

/-- The six-component all-zero test used by `is_equal` and `add`
(projective.rs:69-81, 162-167, 191-196). -/
def Point.isZero (P : Point) : Bool :=
  decide (P.x = (0, 0) ∧ P.y = (0, 0) ∧ P.z = (0, 0))

/-- `Projective::identity` = `[0 : Q-1 : 1]` (projective.rs:28-38). -/
def Projective.identity (q : Nat) : Point :=
  ⟨Ring.fromField q (Fq.new q 0), Ring.fromField q (Fq.new q (q - 1)),
    Ring.fromField q (Fq.new q 1)⟩

/-- `Projective::is_identity` (projective.rs:61-65): compares only the
three constant parts with `0`, `Q - 1`, `1`. -/
def Projective.isIdentity (q : Nat) (P : Point) : Bool :=
  decide (P.x.1 = 0) && decide (P.y.1 = q - 1) && decide (P.z.1 = 1)

/-- `Projective::is_equal` (projective.rs:68-99): panics on an all-zero
operand, then tests `X₁Z₂ = X₂Z₁`, `Y₁Z₂ = Y₂Z₁` and `Z₁X₂ = Z₂X₁`. -/
def Projective.isEqual (q : Nat) (P Q : Point) : Option Bool :=
  if P.isZero || Q.isZero then none
  else
    some (decide (Ring.mul q P.x Q.z = Ring.mul q Q.x P.z)
      && decide (Ring.mul q P.y Q.z = Ring.mul q Q.y P.z)
      && decide (Ring.mul q P.z Q.x = Ring.mul q Q.z P.x))

/-- `X³` computed as `(X·X)·X` (projective.rs:104, 116-118). -/
def Ring.cube (q : Nat) (r : Nat × Nat) : Nat × Nat :=
  Ring.mul q (Ring.mul q r r) r

/-- The non-singularity value `a·(27a − d³)` with `27` first reduced mod
`Q` (projective.rs:104-108 and 233-240; curve.rs:24-27 computes the same
expression). -/
def Projective.curveCond (q : Nat) (a d : Nat × Nat) : Nat × Nat :=
  Ring.mul q a
    (Ring.sub q (Ring.mul q (Ring.fromField q (Fq.new q (27 % q))) a)
      (Ring.cube q d))

/-- `Projective::verify_curve_constraints` (projective.rs:232-243). -/
def Projective.verifyCurveConstraints (q : Nat) (a d : Nat × Nat) : Bool :=
  Ring.isInvertible (Projective.curveCond q a d)

/-- Left side `a·X³ + Y³ + Z³` of the curve equation, associated as in
the source: `a.mul(x³).add(y³).add(z³)` (projective.rs:116-120). -/
def Projective.curveLhs (q : Nat) (a : Nat × Nat) (P : Point) : Nat × Nat :=
  Ring.add q (Ring.add q (Ring.mul q a (Ring.cube q P.x)) (Ring.cube q P.y))
    (Ring.cube q P.z)

/-- Right side `d·X·Y·Z` of the curve equation (projective.rs:122). -/
def Projective.curveRhs (q : Nat) (d : Nat × Nat) (P : Point) : Nat × Nat :=
  Ring.mul q (Ring.mul q (Ring.mul q d P.x) P.y) P.z

/-- `Projective::is_on_curve` (projective.rs:102-125): asserts that
`a(27a − d³)` is invertible, then tests the curve equation. -/
def Projective.isOnCurve (q : Nat) (a d : Nat × Nat) (P : Point) : Option Bool :=
  if Ring.isInvertible (Projective.curveCond q a d) then
    some (decide (Projective.curveLhs q a P = Projective.curveRhs q d P))
  else none

/-- Formula (1) triple of `Projective::add` (projective.rs:137-160):
`X₃ = X₁²Y₂Z₂ − X₂²Y₁Z₁`, `Y₃ = Z₁²X₂Y₂ − Z₂²X₁Y₁`,
`Z₃ = Y₁²X₂Z₂ − Y₂²X₁Z₁`. -/
def Projective.addI (q : Nat) (P Q : Point) : Point :=
  ⟨Ring.sub q (Ring.mul q (Ring.mul q (Ring.mul q P.x P.x) Q.y) Q.z)
      (Ring.mul q (Ring.mul q (Ring.mul q Q.x Q.x) P.y) P.z),
    Ring.sub q (Ring.mul q (Ring.mul q (Ring.mul q P.z P.z) Q.x) Q.y)
      (Ring.mul q (Ring.mul q (Ring.mul q Q.z Q.z) P.x) P.y),
    Ring.sub q (Ring.mul q (Ring.mul q (Ring.mul q P.y P.y) Q.x) Q.z)
      (Ring.mul q (Ring.mul q (Ring.mul q Q.y Q.y) P.x) P.z)⟩

/-- Formula (2) triple of `Projective::add` (projective.rs:170-188):
`X₃' = Z₂²X₁Z₁ − Y₁²X₂Y₂`, `Y₃' = Y₂²Y₁Z₁ − aX₁²X₂Z₂`,
`Z₃' = aX₂²X₁Y₁ − Z₁²Y₂Z₂`. -/
def Projective.addII (q : Nat) (a : Nat × Nat) (P Q : Point) : Point :=
  ⟨Ring.sub q (Ring.mul q (Ring.mul q (Ring.mul q Q.z Q.z) P.x) P.z)
      (Ring.mul q (Ring.mul q (Ring.mul q P.y P.y) Q.x) Q.y),
    Ring.sub q (Ring.mul q (Ring.mul q (Ring.mul q Q.y Q.y) P.y) P.z)
      (Ring.mul q (Ring.mul q (Ring.mul q a (Ring.mul q P.x P.x)) Q.x) Q.z),
    Ring.sub q
      (Ring.mul q (Ring.mul q (Ring.mul q a (Ring.mul q Q.x Q.x)) P.x) P.y)
      (Ring.mul q (Ring.mul q (Ring.mul q P.z P.z) Q.y) Q.z)⟩

/-- `Projective::add` (projective.rs:133-206): formula (1); on the
all-zero triple, formula (2); if that is also all-zero, panic. -/
def Projective.add (q : Nat) (a : Nat × Nat) (P Q : Point) : Option Point :=
  let t := Projective.addI q P Q
  if t.isZero then
    let t2 := Projective.addII q a P Q
    if t2.isZero then none else some t2
  else some t

/-- `Projective::double` (projective.rs:209-211). -/
def Projective.double (q : Nat) (a : Nat × Nat) (P : Point) : Option Point :=
  Projective.add q a P P

/-- The double-and-add loop of `Projective::scalar_mul`
(projective.rs:220-226).  Note the source doubles `temp` on every
iteration, including the last, so a failing doubling propagates. -/
def Projective.scalarMulAux (q : Nat) (a : Nat × Nat) (result temp : Point)
    (k : Nat) : Option Point :=
  if h : k = 0 then some result
  else
    match (if k % 2 = 1 then Projective.add q a result temp else some result) with
    | none => none
    | some r =>
      match Projective.double q a temp with
      | none => none
      | some t => Projective.scalarMulAux q a r t (k / 2)
termination_by k
decreasing_by exact Nat.div_lt_self (Nat.pos_of_ne_zero h) one_lt_two

/-- `Projective::scalar_mul` (projective.rs:214-229): accumulator starts
at the identity. -/
def Projective.scalarMul (q : Nat) (a : Nat × Nat) (P : Point) (k : Nat) :
    Option Point :=
  Projective.scalarMulAux q a (Projective.identity q) P k

/-! ## Layer 4: the curve object (src/curve.rs) -/

/-- `TwistedHessianCurve::scalar_mul` (curve.rs:71-75): asserts
membership (which itself revalidates non-singularity), then delegates. -/
def Curve.scalarMul (q : Nat) (a d : Nat × Nat) (P : Point) (k : Nat) :
    Option Point :=
  match Projective.isOnCurve q a d P with
  | some true => Projective.scalarMul q a P k
  | _ => none

/-- One-step order test: `k·P` compared with the identity exactly as the
`point_order` loop does (curve.rs:93-94). -/
def Curve.kOrd (q : Nat) (a d : Nat × Nat) (P : Point) (k : Nat) : Option Bool :=
  (Curve.scalarMul q a d P k).bind
    (fun m => Projective.isEqual q m (Projective.identity q))

/-- The `for order in 2..=q²` loop of `TwistedHessianCurve::point_order`
(curve.rs:92-106), with the remaining iteration count as fuel; running
out of fuel is the final panic. -/
def Curve.pointOrderLoop (q : Nat) (a d : Nat × Nat) (P : Point) :
    Nat → Nat → Option Nat
  | _, 0 => none
  | order, fuel + 1 =>
    match Curve.scalarMul q a d P order with
    | none => none
    | some m =>
      match Projective.isEqual q m (Projective.identity q) with
      | none => none
      | some false => Curve.pointOrderLoop q a d P (order + 1) fuel
      | some true =>
        match Curve.scalarMul q a d P (order - 1) with
        | none => none
        | some p =>
          match Projective.isEqual q p (Projective.identity q) with
          | none => none
          | some true => Curve.pointOrderLoop q a d P (order + 1) fuel
          | some false => some order

/-- `TwistedHessianCurve::point_order` (curve.rs:78-107): asserts
membership, returns 1 for the identity, else searches `2..=q²`. -/
def Curve.pointOrder (q : Nat) (a d : Nat × Nat) (P : Point) : Option Nat :=
  match Projective.isOnCurve q a d P with
  | some true =>
    match Projective.isEqual q P (Projective.identity q) with
    | none => none
    | some true => some 1
    | some false => Curve.pointOrderLoop q a d P 2 (q ^ 2 - 1)
  | _ => none

/-! ## Spec-side formulas (transcribed from the claim texts, for the
refinement statements) -/

/-- The all-zero projective triple `[0:0:0]`. -/
def zeroTriple : Point := ⟨(0, 0), (0, 0), (0, 0)⟩

/-- Formula (I) of the spec: `X₃ = X₁²·Y₂·Z₂ − X₂²·Y₁·Z₁`,
`Y₃ = Z₁²·X₂·Y₂ − Z₂²·X₁·Y₁`, `Z₃ = Y₁²·X₂·Z₂ − Y₂²·X₁·Z₁`. -/
def specFormulaI (q : Nat) (P Q : Point) : Point :=
  ⟨Ring.sub q (Ring.mul q (Ring.mul q (Ring.mul q P.x P.x) Q.y) Q.z)
      (Ring.mul q (Ring.mul q (Ring.mul q Q.x Q.x) P.y) P.z),
    Ring.sub q (Ring.mul q (Ring.mul q (Ring.mul q P.z P.z) Q.x) Q.y)
      (Ring.mul q (Ring.mul q (Ring.mul q Q.z Q.z) P.x) P.y),
    Ring.sub q (Ring.mul q (Ring.mul q (Ring.mul q P.y P.y) Q.x) Q.z)
      (Ring.mul q (Ring.mul q (Ring.mul q Q.y Q.y) P.x) P.z)⟩

/-- Formula (II) of the spec: `X₃' = Z₂²·X₁·Z₁ − Y₁²·X₂·Y₂`,
`Y₃' = Y₂²·Y₁·Z₁ − a·X₁²·X₂·Z₂`, `Z₃' = a·X₂²·X₁·Y₁ − Z₁²·Y₂·Z₂`. -/
def specFormulaII (q : Nat) (a : Nat × Nat) (P Q : Point) : Point :=
  ⟨Ring.sub q (Ring.mul q (Ring.mul q (Ring.mul q Q.z Q.z) P.x) P.z)
      (Ring.mul q (Ring.mul q (Ring.mul q P.y P.y) Q.x) Q.y),
    Ring.sub q (Ring.mul q (Ring.mul q (Ring.mul q Q.y Q.y) P.y) P.z)
      (Ring.mul q (Ring.mul q (Ring.mul q a (Ring.mul q P.x P.x)) Q.x) Q.z),
    Ring.sub q
      (Ring.mul q (Ring.mul q (Ring.mul q a (Ring.mul q Q.x Q.x)) P.x) P.y)
      (Ring.mul q (Ring.mul q (Ring.mul q P.z P.z) Q.y) Q.z)⟩

/-! ## Dual numbers over `ZMod q` (proof infrastructure) -/

/-- The dual-number product on `ZMod q × ZMod q`. -/
def Dmul {q : Nat} (r s : ZMod q × ZMod q) : ZMod q × ZMod q :=
  (r.1 * s.1, r.1 * s.2 + r.2 * s.1)

/-- Interpret a reduced representative pair in `ZMod q × ZMod q`. -/
def toD (q : Nat) (r : Nat × Nat) : ZMod q × ZMod q :=
  ((r.1 : ZMod q), (r.2 : ZMod q))

/-- The dual-number sum on `ZMod q × ZMod q`. -/
def Dadd {q : Nat} (r s : ZMod q × ZMod q) : ZMod q × ZMod q :=
  (r.1 + s.1, r.2 + s.2)

/-- The dual-number difference on `ZMod q × ZMod q`. -/
def Dsub {q : Nat} (r s : ZMod q × ZMod q) : ZMod q × ZMod q :=
  (r.1 - s.1, r.2 - s.2)

/-- Componentwise negation on `ZMod q × ZMod q`. -/
def Dneg {q : Nat} (r : ZMod q × ZMod q) : ZMod q × ZMod q :=
  (-r.1, -r.2)

/-- Both components of a representative pair lie in `[0, q)`. -/
def RingReduced (q : Nat) (r : Nat × Nat) : Prop := r.1 < q ∧ r.2 < q

/-! ## Helper lemmas: the extended Euclid loop -/

theorem egcdLoop_fst (b : Nat) : ∀ (a : Nat) (os s ot t : Int),
    (egcdLoop a b os s ot t).1 = Nat.gcd b a := by
  induction b using Nat.strong_induction_on with
  | _ b ih =>
    intro a os s ot t
    rw [egcdLoop]
    split
    · subst_vars; simp
    · rename_i h
      rw [ih (a % b) (Nat.mod_lt _ (Nat.pos_of_ne_zero h)) b, Nat.gcd_rec b a]

theorem egcdLoop_modeq (q : Nat) (v : Int) (b : Nat) :
    ∀ (a : Nat) (os s ot t : Int),
      Int.ModEq q (os * v) a → Int.ModEq q (s * v) b →
      Int.ModEq q ((egcdLoop a b os s ot t).2 * v)
        ((egcdLoop a b os s ot t).1 : Int) := by
  induction b using Nat.strong_induction_on with
  | _ b ih =>
    intro a os s ot t ha hb
    rw [egcdLoop]
    split
    · exact ha
    · rename_i h
      refine ih (a % b) (Nat.mod_lt _ (Nat.pos_of_ne_zero h)) b s _ t _ hb ?_
      have hcast : ((a % b : Nat) : Int) = (a : Int) - ((a / b : Nat) : Int) * b := by
        have h1 : ((a % b : Nat) : Int) + ((a / b : Nat) : Int) * b = a := by
          exact_mod_cast Nat.mod_add_div' a b
        linarith
      have h2 : (os - ((a / b : Nat) : Int) * s) * v
          = os * v - ((a / b : Nat) : Int) * (s * v) := by ring
      rw [h2, hcast]
      exact Int.ModEq.sub ha (Int.ModEq.mul_left _ hb)

/-- Linear-arithmetic core of the coefficient bound: from the signed
invariants, `|s| ≤ q`. -/
theorem egcd_coeff_bound (q a b os s : Int) (ha : 1 ≤ a) (hb : 0 ≤ b)
    (hsign : os * s ≤ 0) (hinv : os * b - s * a = q ∨ os * b - s * a = -q)
    (hq : 0 ≤ q) : -q ≤ s ∧ s ≤ q := by
  rcases lt_trichotomy s 0 with hs | hs | hs
  · have hos : 0 ≤ os := by nlinarith
    have h1 : 0 ≤ os * b := mul_nonneg hos hb
    have h2 : s * a ≤ s := by nlinarith
    have h3 : -q ≤ s * a := by rcases hinv with h | h <;> nlinarith
    exact ⟨by linarith, by linarith⟩
  · constructor
    · rw [hs]; linarith
    · rw [hs]; linarith
  · have hos : os ≤ 0 := by nlinarith
    have h1 : os * b ≤ 0 := mul_nonpos_of_nonpos_of_nonneg hos hb
    have h2 : s ≤ s * a := by nlinarith
    have h3 : s * a ≤ q := by rcases hinv with h | h <;> nlinarith
    exact ⟨by linarith, by linarith⟩

theorem egcdLoop_bound (q : Nat) (b : Nat) :
    ∀ (a : Nat) (os s ot t : Int), 0 < b → 0 < a → os * s ≤ 0 →
      (os * b - s * a = q ∨ os * b - s * a = -q) →
      -(q : Int) ≤ (egcdLoop a b os s ot t).2 ∧ (egcdLoop a b os s ot t).2 ≤ q := by
  induction b using Nat.strong_induction_on with
  | _ b ih =>
    intro a os s ot t hb ha hsign hinv
    rw [egcdLoop]
    split
    · rename_i h0
      exact absurd h0 (by omega)
    · rename_i h
      have hsbound := egcd_coeff_bound (q : Int) a b os s (by exact_mod_cast ha)
        (by exact_mod_cast hb.le) hsign hinv (by exact_mod_cast Nat.zero_le q)
      have hcast : ((a % b : Nat) : Int) = (a : Int) - ((a / b : Nat) : Int) * b := by
        have h1 : ((a % b : Nat) : Int) + ((a / b : Nat) : Int) * b = a := by
          exact_mod_cast Nat.mod_add_div' a b
        linarith
      have hsign' : s * (os - ((a / b : Nat) : Int) * s) ≤ 0 := by
        have h1 : (0 : Int) ≤ ((a / b : Nat) : Int) * (s * s) :=
          mul_nonneg (by exact_mod_cast Nat.zero_le _) (mul_self_nonneg s)
        nlinarith
      have hinv' : s * ((a % b : Nat) : Int) - (os - ((a / b : Nat) : Int) * s) * b
          = -(os * b - s * a) := by rw [hcast]; ring
      by_cases hz : a % b = 0
      · rw [hz]
        rw [egcdLoop]
        simpa using hsbound
      · refine ih (a % b) (Nat.mod_lt _ (Nat.pos_of_ne_zero h)) b s _ t _
          (Nat.pos_of_ne_zero hz) hb hsign' ?_
        rw [hinv']
        rcases hinv with h' | h'
        · right; rw [h']
        · left; rw [h']; ring

/-! ## Helper lemmas: `Fq.inv` -/

theorem Fq.inv_eq_none_iff (q v : Nat) :
    Fq.inv q v = none ↔ (v = 0 ∨ Nat.gcd v q ≠ 1) := by
  unfold Fq.inv
  split
  · simp_all
  · rename_i hv
    have hg : (egcdLoop v q 1 0 0 1).1 = Nat.gcd v q := by
      rw [egcdLoop_fst, Nat.gcd_comm]
    simp only [hg]
    split <;> simp_all

theorem Fq.inv_some_spec (q v x : Nat) (hq : 1 < q) (hv : v < q) :
    Fq.inv q v = some x → x < q ∧ v * x % q = 1 := by
  unfold Fq.inv
  split
  · intro h; cases h
  · rename_i hv0
    have hg : (egcdLoop v q 1 0 0 1).1 = Nat.gcd v q := by
      rw [egcdLoop_fst, Nat.gcd_comm]
    split
    · rename_i hone
      intro h
      have hx : x = Fq.new q (Int.toNat
          (if (egcdLoop v q 1 0 0 1).2 < 0 then (egcdLoop v q 1 0 0 1).2 + q
            else (egcdLoop v q 1 0 0 1).2)) := by
        cases h; rfl
      set os := (egcdLoop v q 1 0 0 1).2 with hos
      -- Bézout congruence: os * v ≡ gcd = 1 (mod q)
      have hbez : Int.ModEq q (os * v) 1 := by
        have h0 : Int.ModEq q ((1 : Int) * v) (v : Nat) := by
          rw [one_mul]
        have h1 : Int.ModEq q ((0 : Int) * v) (q : Nat) := by
          rw [zero_mul]
          exact (Int.modEq_iff_dvd.mpr (by simp)).symm
        have := egcdLoop_modeq q v q v 1 0 0 1 h0 h1
        rw [hone] at this
        exact_mod_cast this
      -- bound: -q ≤ os ≤ q
      have hbound : -(q : Int) ≤ os ∧ os ≤ q := by
        refine egcdLoop_bound q q v 1 0 0 1 (by omega) (Nat.pos_of_ne_zero hv0) ?_ ?_
        · simp
        · left; ring
      set w : Int := if os < 0 then os + q else os with hw
      have hw0 : 0 ≤ w := by
        rw [hw]; split <;> omega
      have hwmod : Int.ModEq q w os := by
        rw [hw]; split
        · exact (Int.modEq_iff_dvd.mpr (by simp)).symm
        · rfl
      constructor
      · rw [hx]; exact Nat.mod_lt _ (by omega)
      · -- v * x ≡ v * w ≡ v * os ≡ 1 (mod q)
        have hxw : ((x : Nat) : Int) = (w.toNat : Int) % q := by
          rw [hx]
          unfold Fq.new
          push_cast
          rfl
        have hxmod : Int.ModEq q (x : Nat) os := by
          have h1 : Int.ModEq q ((w.toNat : Int) % q) (w.toNat : Int) :=
            Int.emod_emod_of_dvd _ dvd_rfl
          have h2 : (w.toNat : Int) = w := Int.toNat_of_nonneg hw0
          calc ((x : Nat) : Int) = (w.toNat : Int) % q := hxw
            _ ≡ (w.toNat : Int) [ZMOD q] := h1
            _ = w := h2
            _ ≡ os [ZMOD q] := hwmod
        have hfin : Int.ModEq q ((v * x : Nat) : Int) 1 := by
          calc (v : Int) * x ≡ (v : Int) * os [ZMOD q] := Int.ModEq.mul_left _ hxmod
            _ = os * v := by ring
            _ ≡ 1 [ZMOD q] := hbez
        have hfinN : Nat.ModEq q (v * x) 1 := by
          refine Int.natCast_modEq_iff.mp ?_
          exact_mod_cast hfin
        have hgoal := hfinN
        unfold Nat.ModEq at hgoal
        rw [Nat.mod_eq_of_lt hq] at hgoal
        exact hgoal
    · intro h; cases h

theorem Fq.inv_unique (q v x y : Nat) (hx : v * x % q = 1) (hy : v * y % q = 1)
    (hxq : x < q) (hyq : y < q) : y = x := by
  have hq : 0 < q := Nat.lt_of_le_of_lt (Nat.zero_le x) hxq
  have h1q : 1 < q := hx ▸ Nat.mod_lt (v * x) hq
  have hx' : Nat.ModEq q (v * x) 1 := by
    unfold Nat.ModEq; rw [hx, Nat.mod_eq_of_lt h1q]
  have hy' : Nat.ModEq q (v * y) 1 := by
    unfold Nat.ModEq; rw [hy, Nat.mod_eq_of_lt h1q]
  have : Nat.ModEq q y x := by
    calc y = y * 1 := by ring
      _ ≡ y * (v * x) [MOD q] := (Nat.ModEq.mul_left _ hx'.symm)
      _ = x * (v * y) := by ring
      _ ≡ x * 1 [MOD q] := (Nat.ModEq.mul_left _ hy')
      _ = x := by ring
  have := this.eq_of_lt_of_lt hyq hxq
  exact this

/-! ## Helper lemmas: `Fq.pow` -/

theorem Fq.powAux_eq (q : Nat) (hq : 0 < q) (e : Nat) :
    ∀ r b : Nat, r < q → Fq.powAux q r b e = r * b ^ e % q := by
  induction e using Nat.strong_induction_on with
  | _ e ih =>
    intro r b hr
    rw [Fq.powAux]
    split
    · subst_vars; simp [Nat.mod_eq_of_lt hr]
    · rename_i he
      have hlt : e / 2 < e := Nat.div_lt_self (Nat.pos_of_ne_zero he) one_lt_two
      have hr' : (if e % 2 = 1 then Fq.mul q r b else r) < q := by
        split
        · exact Nat.mod_lt _ hq
        · exact hr
      rw [ih (e / 2) hlt _ _ hr']
      have h2 : Nat.ModEq q ((Fq.mul q b b) ^ (e / 2)) ((b * b) ^ (e / 2)) :=
        (Nat.mod_modEq (b * b) q).pow _
      split
      · rename_i hodd
        have he2 : 2 * (e / 2) + 1 = e := by omega
        have hbe : b ^ e = (b * b) ^ (e / 2) * b := by
          conv_lhs => rw [← he2]
          rw [pow_succ, pow_mul, pow_two]
        have h1 : Nat.ModEq q (Fq.mul q r b) (r * b) := Nat.mod_modEq _ _
        have h3 : Nat.ModEq q (Fq.mul q r b * (Fq.mul q b b) ^ (e / 2))
            (r * b ^ e) := by
          calc Fq.mul q r b * (Fq.mul q b b) ^ (e / 2)
              ≡ r * b * (b * b) ^ (e / 2) [MOD q] := h1.mul h2
            _ = r * b ^ e := by rw [hbe]; ring
        exact h3
      · rename_i hodd
        have he2 : 2 * (e / 2) = e := by omega
        have hbe : b ^ e = (b * b) ^ (e / 2) := by
          conv_lhs => rw [← he2]
          rw [pow_mul, pow_two]
        have h3 : Nat.ModEq q (r * (Fq.mul q b b) ^ (e / 2)) (r * b ^ e) := by
          calc r * (Fq.mul q b b) ^ (e / 2)
              ≡ r * (b * b) ^ (e / 2) [MOD q] := Nat.ModEq.mul_left _ h2
            _ = r * b ^ e := by rw [hbe]
        exact h3

theorem Fq.pow_eq (q v e : Nat) (hq : 1 < q) : Fq.pow q v e = v ^ e % q := by
  unfold Fq.pow
  have hnew : Fq.new q 1 = 1 := by
    unfold Fq.new; exact Nat.mod_eq_of_lt hq
  rw [hnew, Fq.powAux_eq q (by omega) e 1 v hq, one_mul]

/-! ## Helper lemmas: dual numbers over `ZMod q` -/

theorem Ring.mul_reduced (q : Nat) (hq : 0 < q) (r s : Nat × Nat) :
    RingReduced q (Ring.mul q r s) :=
  ⟨Nat.mod_lt _ hq, Nat.mod_lt _ hq⟩

theorem Ring.add_reduced (q : Nat) (hq : 0 < q) (r s : Nat × Nat) :
    RingReduced q (Ring.add q r s) :=
  ⟨Nat.mod_lt _ hq, Nat.mod_lt _ hq⟩

theorem Ring.sub_reduced (q : Nat) (hq : 0 < q) (r s : Nat × Nat) :
    RingReduced q (Ring.sub q r s) :=
  ⟨Nat.mod_lt _ hq, Nat.mod_lt _ hq⟩

theorem Fq.new_toZ (q v : Nat) : ((Fq.new q v : Nat) : ZMod q) = (v : ZMod q) := by
  unfold Fq.new
  exact ZMod.natCast_mod v q

theorem Fq.add_toZ (q x y : Nat) :
    ((Fq.add q x y : Nat) : ZMod q) = (x : ZMod q) + y := by
  unfold Fq.add
  rw [Fq.new_toZ]
  push_cast
  ring

theorem Fq.mul_toZ (q x y : Nat) :
    ((Fq.mul q x y : Nat) : ZMod q) = (x : ZMod q) * y := by
  unfold Fq.mul
  rw [Fq.new_toZ]
  push_cast
  ring

theorem Fq.sub_toZ (q x y : Nat) (hy : y < q) :
    ((Fq.sub q x y : Nat) : ZMod q) = (x : ZMod q) - y := by
  unfold Fq.sub
  rw [Fq.new_toZ]
  split
  · rename_i h
    rw [Nat.cast_sub (show y ≤ x + q by omega)]
    push_cast [ZMod.natCast_self]
    ring
  · rename_i h
    rw [Nat.cast_sub (by omega)]

theorem toD_mul (q : Nat) (r s : Nat × Nat) :
    toD q (Ring.mul q r s) = Dmul (toD q r) (toD q s) := by
  unfold toD Ring.mul Dmul
  simp [Fq.mul_toZ, Fq.add_toZ]

theorem toD_add (q : Nat) (r s : Nat × Nat) :
    toD q (Ring.add q r s) = Dadd (toD q r) (toD q s) := by
  unfold toD Ring.add Dadd
  simp [Fq.add_toZ]

theorem toD_sub (q : Nat) (r s : Nat × Nat) (hs : RingReduced q s) :
    toD q (Ring.sub q r s) = Dsub (toD q r) (toD q s) := by
  unfold toD Ring.sub Dsub
  simp [Fq.sub_toZ q _ _ hs.1, Fq.sub_toZ q _ _ hs.2]

theorem toD_inj (q : Nat) (hq : 0 < q) {r s : Nat × Nat} (hr : RingReduced q r)
    (hs : RingReduced q s) (h : toD q r = toD q s) : r = s := by
  haveI : NeZero q := ⟨hq.ne'⟩
  have h1 := congrArg Prod.fst h
  have h2 := congrArg Prod.snd h
  simp only [toD] at h1 h2
  have e1 := congrArg ZMod.val h1
  rw [ZMod.val_cast_of_lt hr.1, ZMod.val_cast_of_lt hs.1] at e1
  have e2 := congrArg ZMod.val h2
  rw [ZMod.val_cast_of_lt hr.2, ZMod.val_cast_of_lt hs.2] at e2
  exact Prod.ext e1 e2

theorem natCast_zero_iff (q n : Nat) (hq : 0 < q) (hn : n < q) :
    ((n : ZMod q) = 0) ↔ n = 0 := by
  haveI : NeZero q := ⟨hq.ne'⟩
  constructor
  · intro h
    have hv := congrArg ZMod.val h
    rwa [ZMod.val_cast_of_lt hn, ZMod.val_zero] at hv
  · intro h
    simp [h]

theorem cast_q_sub_one (q : Nat) (hq : 1 < q) : ((q - 1 : Nat) : ZMod q) = -1 := by
  rw [Nat.cast_sub (by omega), ZMod.natCast_self, zero_sub, Nat.cast_one]

theorem identity_x (q : Nat) : (Projective.identity q).x = (0, 0) := by
  simp [Projective.identity, Ring.fromField, Fq.new]

theorem identity_y (q : Nat) (hq : 1 < q) :
    (Projective.identity q).y = (q - 1, 0) := by
  simp [Projective.identity, Ring.fromField, Fq.new,
    Nat.mod_eq_of_lt (show q - 1 < q by omega)]

theorem identity_z (q : Nat) (hq : 1 < q) : (Projective.identity q).z = (1, 0) := by
  simp [Projective.identity, Ring.fromField, Fq.new, Nat.mod_eq_of_lt hq]

theorem identity_isZero (q : Nat) (hq : 1 < q) :
    (Projective.identity q).isZero = false := by
  simp [Point.isZero, identity_x, identity_z q hq]

/-- Introduction rule for `is_equal` evaluating to `true`. -/
theorem isEqual_intro (q : Nat) (P Q : Point)
    (hP : P.isZero = false) (hQ : Q.isZero = false)
    (h1 : Ring.mul q P.x Q.z = Ring.mul q Q.x P.z)
    (h2 : Ring.mul q P.y Q.z = Ring.mul q Q.y P.z)
    (h3 : Ring.mul q P.z Q.x = Ring.mul q Q.z P.x) :
    Projective.isEqual q P Q = some true := by
  unfold Projective.isEqual
  rw [hP, hQ]
  simp [h1, h2, h3]

/-! ## Claim C7: `Fq::inv` -/

/-- C7.  `Fq::inv` fails exactly when the value is `0` or not coprime to
`q`; on success it returns the unique `x ∈ [0, q)` with
`v·x ≡ 1 (mod q)`. -/
theorem fq_inv_spec (q v : Nat) (hq : 1 < q) (hv : v < q) :
    (Fq.inv q v = none ↔ v = 0 ∨ Nat.gcd v q ≠ 1) ∧
    (∀ x, Fq.inv q v = some x →
      x < q ∧ v * x % q = 1 ∧ ∀ y, y < q → v * y % q = 1 → y = x) := by
  refine ⟨Fq.inv_eq_none_iff q v, ?_⟩
  intro x hx
  obtain ⟨hlt, hmul⟩ := Fq.inv_some_spec q v x hq hv hx
  exact ⟨hlt, hmul, fun y hyq hy => Fq.inv_unique q v x y hmul hy hlt hyq⟩

/-- Witness for C7 at `q = 11`, `v = 5`: the inverse is `9`. -/
theorem fq_inv_spec_witness :
    Fq.inv 11 5 = some 9 ∧ 9 < 11 ∧ 5 * 9 % 11 = 1 := by
  have hev : Fq.inv 11 5 = some 9 := by
    simp [Fq.inv, egcdLoop, Fq.new]
  have h := (fq_inv_spec 11 5 (by decide) (by decide)).2 9 hev
  exact ⟨hev, h.1, h.2.1⟩

/-! ## Claim C8: `Fq::is_minus_three_square` -/

/-- C8 as amended.  For accepted moduli: the call fails (panics in
`checked_sub`) at `q = 2`; returns `false` for even `q ≥ 4`; for odd `q`
it returns exactly the Euler test `(q−3)^((q−1)/2) mod q = 1`. -/
theorem minus_three_square_spec (q : Nat) (hq : 1 < q) (hub : q < 2 ^ 63 - 1) :
    (q = 2 → Fq.isMinusThreeSquare q = none) ∧
    (q % 2 = 0 → 2 < q → Fq.isMinusThreeSquare q = some false) ∧
    (q % 2 = 1 →
      Fq.isMinusThreeSquare q = some (decide ((q - 3) ^ ((q - 1) / 2) % q = 1))) := by
  refine ⟨?_, ?_, ?_⟩
  · intro h2
    subst h2
    decide
  · intro heven hgt
    unfold Fq.isMinusThreeSquare
    rw [if_neg (by omega), if_neg (by omega), if_neg (by omega), if_pos heven]
  · intro hodd
    have h3 : ¬q < 3 := by omega
    unfold Fq.isMinusThreeSquare
    rw [if_neg (by omega), if_neg (by omega), if_neg h3, if_neg (by omega)]
    have hlt : q - 3 < q := by omega
    have hnew : Fq.new q (q - 3) = q - 3 := Nat.mod_eq_of_lt hlt
    rw [hnew, Fq.pow_eq q (q - 3) ((q - 1) / 2) hq]

/-- Witness for C8 at `q = 7` (odd: Euler test positive) and `q = 4`
(even: `false`). -/
theorem minus_three_square_spec_witness :
    Fq.isMinusThreeSquare 7 = some (decide ((7 - 3) ^ ((7 - 1) / 2) % 7 = 1)) ∧
    Fq.isMinusThreeSquare 4 = some false :=
  ⟨(minus_three_square_spec 7 (by decide) (by decide)).2.2 (by decide),
    (minus_three_square_spec 4 (by decide) (by decide)).2.1 (by decide) (by decide)⟩

/-- Counterexample for C8 as stated: `q = 2` is accepted by the library
(`Fq::new` succeeds), is even, yet `is_minus_three_square` does not
return `false` — it fails in `Q.checked_sub(3)`. -/
theorem minus_three_square_counterexample :
    Fq.mk 2 0 = some 0 ∧ 2 % 2 = 0 ∧ Fq.isMinusThreeSquare 2 ≠ some false := by
  refine ⟨by decide, by decide, ?_⟩
  decide

/-! ## Claim C9: `Fq::new` -/

/-- C9 as amended.  `Fq::new` fails exactly when `q ≤ 1`,
`q ≥ 2⁶³ − 1`, or `v ≥ 2⁶³ − 1` (the bound is `i64::MAX = 2⁶³ − 1`, not
`2⁶³`); otherwise it returns `v mod q ∈ [0, q)`. -/
theorem fq_new_spec (q v : Nat) :
    (Fq.mk q v = none ↔ (q ≤ 1 ∨ 2 ^ 63 - 1 ≤ q ∨ 2 ^ 63 - 1 ≤ v)) ∧
    (1 < q → q < 2 ^ 63 - 1 → v < 2 ^ 63 - 1 →
      Fq.mk q v = some (v % q) ∧ v % q < q) := by
  constructor
  · unfold Fq.mk
    split
    · simp_all
    · split
      · simp_all
      · split
        · simp_all
        · simp_all [Fq.new]
  · intro h1 h2 h3
    refine ⟨?_, Nat.mod_lt _ (by omega)⟩
    unfold Fq.mk Fq.new
    rw [if_neg (by omega), if_neg (by omega), if_neg (by omega)]

/-- Witness for C9 at `q = 7`, `v = 10`. -/
theorem fq_new_spec_witness : Fq.mk 7 10 = some 3 ∧ 3 < 7 := by
  have h := (fq_new_spec 7 10).2 (by decide) (by decide) (by decide)
  refine ⟨?_, by decide⟩
  simpa using h.1

/-- Counterexample for C9 as stated: at `q = 7`,
`v = 2⁶³ − 1 < 2⁶³` the claim predicts success, but `Fq::new` rejects the
value (`value < i64::MAX` fails). -/
theorem fq_new_counterexample :
    Fq.mk 7 (2 ^ 63 - 1) = none ∧
    ¬(7 ≤ 1) ∧ ¬(2 ^ 63 ≤ 7) ∧ ¬(2 ^ 63 ≤ 2 ^ 63 - 1) := by
  refine ⟨?_, by decide, by decide, by decide⟩
  decide

/-! ## Claim C10: `Projective::is_identity` -/

/-- C10.  `is_identity` compares only the constant parts with
`(0, q−1, 1)`: the ε-coefficients are ignored, so any
`[bε : (q−1)+cε : 1+dε]` is reported as the identity, while
`[0 : 2(q−1) mod q : 2]` — projectively equal to the identity — is not. -/
theorem is_identity_spec (q : Nat) :
    (∀ P : Point, Projective.isIdentity q P = true ↔
      (P.x.1 = 0 ∧ P.y.1 = q - 1 ∧ P.z.1 = 1)) ∧
    (∀ b c d : Nat,
      Projective.isIdentity q ⟨(0, b), (q - 1, c), (1, d)⟩ = true) ∧
    (2 < q →
      Projective.isIdentity q ⟨(0, 0), (2 * (q - 1) % q, 0), (2 % q, 0)⟩ = false ∧
      Projective.isEqual q ⟨(0, 0), (2 * (q - 1) % q, 0), (2 % q, 0)⟩
        (Projective.identity q) = some true) := by
  refine ⟨?_, ?_, ?_⟩
  · intro P
    simp [Projective.isIdentity, Bool.and_eq_true, decide_eq_true_iff, and_assoc]
  · intro b c d
    simp [Projective.isIdentity]
  · intro hq
    have hy : 2 * (q - 1) % q = q - 2 := by
      have h1 : 2 * (q - 1) = q + (q - 2) := by omega
      rw [h1, Nat.add_mod_left, Nat.mod_eq_of_lt (by omega)]
    have hz2 : 2 % q = 2 := Nat.mod_eq_of_lt (by omega)
    constructor
    · simp only [Projective.isIdentity, hy]
      have : ¬(q - 2 = q - 1) := by omega
      simp [this]
    · refine isEqual_intro q _ _ ?_ (identity_isZero q (by omega)) ?_ ?_ ?_
      · simp only [Point.isZero, hy]
        have hne : ¬(q - 2 = 0) := by omega
        simp [hne]
      all_goals
        refine toD_inj q (by omega) (Ring.mul_reduced q (by omega) _ _)
          (Ring.mul_reduced q (by omega) _ _) ?_
      all_goals
        rw [toD_mul, toD_mul]
        simp only [identity_x, identity_y q (by omega), identity_z q (by omega),
          toD, Dmul, Prod.ext_iff]
        push_cast [ZMod.natCast_mod, cast_q_sub_one q (by omega)]
        refine ⟨by ring, by ring⟩

/-! ## Claim C1: the two-formula addition protocol -/

theorem isZero_iff (t : Point) : t.isZero = true ↔ t = zeroTriple := by
  cases t
  simp [Point.isZero, zeroTriple]

/-- C1.  `Projective::add` returns the formula (I) triple when it is not
`[0:0:0]`; otherwise the formula (II) triple when that is not `[0:0:0]`;
and it fails exactly when both triples are `[0:0:0]`. -/
theorem add_protocol (q : Nat) (a : Nat × Nat) (P Q : Point) :
    (specFormulaI q P Q ≠ zeroTriple →
      Projective.add q a P Q = some (specFormulaI q P Q)) ∧
    (specFormulaI q P Q = zeroTriple → specFormulaII q a P Q ≠ zeroTriple →
      Projective.add q a P Q = some (specFormulaII q a P Q)) ∧
    (Projective.add q a P Q = none ↔
      (specFormulaI q P Q = zeroTriple ∧ specFormulaII q a P Q = zeroTriple)) := by
  have hI : specFormulaI q P Q = Projective.addI q P Q := rfl
  have hII : specFormulaII q a P Q = Projective.addII q a P Q := rfl
  rw [hI, hII]
  simp only [Projective.add]
  split
  · rename_i h1
    have h1' : Projective.addI q P Q = zeroTriple := (isZero_iff _).mp h1
    split
    · rename_i h2
      have h2' : Projective.addII q a P Q = zeroTriple := (isZero_iff _).mp h2
      exact ⟨fun hc => absurd h1' hc, fun _ hc => absurd h2' hc, by simp [h1', h2']⟩
    · rename_i h2
      have h2' : Projective.addII q a P Q ≠ zeroTriple :=
        fun hc => h2 ((isZero_iff _).mpr hc)
      exact ⟨fun hc => absurd h1' hc, fun _ _ => rfl, by simp [h2']⟩
  · rename_i h1
    have h1' : Projective.addI q P Q ≠ zeroTriple :=
      fun hc => h1 ((isZero_iff _).mpr hc)
    exact ⟨fun _ => rfl, fun hc => absurd hc h1', by simp [h1']⟩

/-- Witness for C1: `P + O` over the `F₅[ε]` curve, where formula (I)
yields a non-zero triple. -/
theorem add_protocol_witness :
    specFormulaI 5 ⟨(1, 0), (2, 0), (3, 1)⟩ ⟨(0, 0), (4, 0), (1, 0)⟩ ≠ zeroTriple ∧
    Projective.add 5 (1, 1) ⟨(1, 0), (2, 0), (3, 1)⟩ ⟨(0, 0), (4, 0), (1, 0)⟩
      = some (specFormulaI 5 ⟨(1, 0), (2, 0), (3, 1)⟩ ⟨(0, 0), (4, 0), (1, 0)⟩) :=
  ⟨by decide, (add_protocol 5 (1, 1) _ _).1 (by decide)⟩

/-! ## Claim C2: the paper's KATs over `F₅[ε]` -/

/-- C2.  Over `F₅[ε]` with `a = d = 1 + ε` and `P = [1 : 2 : 3+ε]`:
non-singularity holds, `P` is on the curve, and `4P`, `5P`, `35P` are
projectively equal to the paper's values. -/
theorem paper_kat :
    Projective.verifyCurveConstraints 5 (1, 1) (1, 1) = true ∧
    Projective.isOnCurve 5 (1, 1) (1, 1) ⟨(1, 0), (2, 0), (3, 1)⟩ = some true ∧
    (Projective.scalarMul 5 (1, 1) ⟨(1, 0), (2, 0), (3, 1)⟩ 4).bind
      (fun r => Projective.isEqual 5 r ⟨(1, 0), (4, 0), (3, 2)⟩) = some true ∧
    (Projective.scalarMul 5 (1, 1) ⟨(1, 0), (2, 0), (3, 1)⟩ 5).bind
      (fun r => Projective.isEqual 5 r ⟨(1, 0), (3, 2), (4, 3)⟩) = some true ∧
    (Projective.scalarMul 5 (1, 1) ⟨(1, 0), (2, 0), (3, 1)⟩ 35).bind
      (fun r => Projective.isEqual 5 r ⟨(1, 0), (3, 0), (2, 0)⟩) = some true := by
  refine ⟨by decide, by decide, ?_, ?_, ?_⟩ <;>
    simp [Projective.scalarMul, Projective.scalarMulAux, Projective.double,
      Projective.add, Projective.addI, Projective.addII, Projective.identity,
      Ring.mul, Ring.add, Ring.sub, Ring.fromField, Fq.mul, Fq.add, Fq.sub, Fq.new,
      Point.isZero, Projective.isEqual, Option.bind]

/-! ## Claim C3: projective equality -/

theorem Ring.mul_commutes (q : Nat) (r s : Nat × Nat) :
    Ring.mul q r s = Ring.mul q s r := by
  unfold Ring.mul Fq.mul Fq.add Fq.new
  refine Prod.ext ?_ ?_ <;> simp [Nat.mul_comm, Nat.add_comm]

/-- C3 as amended.  For non-zero operands, `is_equal` returns `true` iff
the two cross-products `X₁Z₂ = X₂Z₁` and `Y₁Z₂ = Y₂Z₁` hold: the third
check `Z₁X₂ = Z₂X₁` is the first one restated by commutativity, and the
`X₁Y₂ = X₂Y₁` equation of the claim is not checked at all. -/
theorem is_equal_spec (q : Nat) (P Q : Point)
    (hP : P.isZero = false) (hQ : Q.isZero = false) :
    Projective.isEqual q P Q =
      some (decide (Ring.mul q P.x Q.z = Ring.mul q Q.x P.z ∧
        Ring.mul q P.y Q.z = Ring.mul q Q.y P.z)) := by
  unfold Projective.isEqual
  rw [hP, hQ]
  simp only [Bool.or_self, Bool.false_eq_true, if_false]
  have h31 : (Ring.mul q P.z Q.x = Ring.mul q Q.z P.x) ↔
      (Ring.mul q P.x Q.z = Ring.mul q Q.x P.z) := by
    rw [Ring.mul_commutes q P.z Q.x, Ring.mul_commutes q Q.z P.x]
    exact eq_comm
  refine congrArg some ?_
  rw [Bool.eq_iff_iff]
  simp only [Bool.and_eq_true, decide_eq_true_eq]
  constructor
  · rintro ⟨⟨ha, hb⟩, _⟩
    exact ⟨ha, hb⟩
  · rintro ⟨ha, hb⟩
    exact ⟨⟨ha, hb⟩, h31.mpr ha⟩

/-- Witness for C3: a reflexive equality check. -/
theorem is_equal_spec_witness :
    Projective.isEqual 5 ⟨(1, 0), (2, 0), (3, 1)⟩ ⟨(1, 0), (2, 0), (3, 1)⟩ =
      some (decide
        (Ring.mul 5 (Point.mk (1, 0) (2, 0) (3, 1)).x
            (Point.mk (1, 0) (2, 0) (3, 1)).z =
          Ring.mul 5 (Point.mk (1, 0) (2, 0) (3, 1)).x
            (Point.mk (1, 0) (2, 0) (3, 1)).z ∧
        Ring.mul 5 (Point.mk (1, 0) (2, 0) (3, 1)).y
            (Point.mk (1, 0) (2, 0) (3, 1)).z =
          Ring.mul 5 (Point.mk (1, 0) (2, 0) (3, 1)).y
            (Point.mk (1, 0) (2, 0) (3, 1)).z)) :=
  is_equal_spec 5 _ _ (by decide) (by decide)

/-- Counterexample for C3 as stated: over `F₅[ε]`, `P = [1 : 1+ε : ε]`
and `Q = [1+ε : 1 : ε]` — neither being the all-zero triple, so the
claim applies — make `is_equal` return `true`, yet the claim's three
cross-product equations do not all hold in `R`: specifically
`X₁Y₂ = 1 ≠ 1 + 2ε = X₂Y₁`.  This falsifies the claimed "if and only
if" at a concrete input. -/
theorem is_equal_counterexample :
    Point.isZero ⟨(1, 0), (1, 1), (0, 1)⟩ = false ∧
    Point.isZero ⟨(1, 1), (1, 0), (0, 1)⟩ = false ∧
    Projective.isEqual 5 ⟨(1, 0), (1, 1), (0, 1)⟩ ⟨(1, 1), (1, 0), (0, 1)⟩
      = some true ∧
    Ring.mul 5 (Point.mk (1, 0) (1, 1) (0, 1)).x
        (Point.mk (1, 1) (1, 0) (0, 1)).y ≠
      Ring.mul 5 (Point.mk (1, 1) (1, 0) (0, 1)).x
        (Point.mk (1, 0) (1, 1) (0, 1)).y ∧
    ¬(Ring.mul 5 (Point.mk (1, 0) (1, 1) (0, 1)).x
          (Point.mk (1, 1) (1, 0) (0, 1)).z =
        Ring.mul 5 (Point.mk (1, 1) (1, 0) (0, 1)).x
          (Point.mk (1, 0) (1, 1) (0, 1)).z ∧
      Ring.mul 5 (Point.mk (1, 0) (1, 1) (0, 1)).y
          (Point.mk (1, 1) (1, 0) (0, 1)).z =
        Ring.mul 5 (Point.mk (1, 1) (1, 0) (0, 1)).y
          (Point.mk (1, 0) (1, 1) (0, 1)).z ∧
      Ring.mul 5 (Point.mk (1, 0) (1, 1) (0, 1)).x
          (Point.mk (1, 1) (1, 0) (0, 1)).y =
        Ring.mul 5 (Point.mk (1, 1) (1, 0) (0, 1)).x
          (Point.mk (1, 0) (1, 1) (0, 1)).y) := by
  decide

/-! ## Claim C6: ring invertibility and inverses -/

/-- C6.  In `F_q[ε]/(ε²)` with `q` prime: `is_invertible` holds iff the
constant part is non-zero; `inv` fails exactly on constant part zero; and
on success `r · r⁻¹ = 1 + 0ε` exactly. -/
theorem ring_inv_spec (q : Nat) (r : Nat × Nat) (hq : Nat.Prime q)
    (hr1 : r.1 < q) :
    (Ring.isInvertible r = true ↔ r.1 ≠ 0) ∧
    (Ring.inv q r = none ↔ r.1 = 0) ∧
    (∀ s, Ring.inv q r = some s → Ring.mul q r s = (1, 0)) := by
  have hq1 : 1 < q := hq.one_lt
  have hgcd : r.1 ≠ 0 → Nat.gcd r.1 q = 1 := by
    intro hne
    have hnd : ¬q ∣ r.1 := fun hdvd =>
      absurd (Nat.le_of_dvd (Nat.pos_of_ne_zero hne) hdvd) (by omega)
    exact ((Nat.Prime.coprime_iff_not_dvd hq).mpr hnd).symm
  refine ⟨by simp [Ring.isInvertible], ?_, ?_⟩
  · constructor
    · intro h
      by_contra hne
      have hnn : ¬ Fq.inv q r.1 = none := by
        rw [Fq.inv_eq_none_iff]
        push_neg
        exact ⟨hne, hgcd hne⟩
      obtain ⟨x, hx⟩ := Option.ne_none_iff_exists'.mp hnn
      unfold Ring.inv at h
      rw [if_pos (by simp [Ring.isInvertible, hne]), hx] at h
      cases h
    · intro h0
      simp [Ring.inv, Ring.isInvertible, h0]
  · intro s hs
    unfold Ring.inv at hs
    by_cases h0 : r.1 = 0
    · rw [if_neg (by simp [Ring.isInvertible, h0])] at hs
      cases hs
    · rw [if_pos (by simp [Ring.isInvertible, h0])] at hs
      cases hinv : Fq.inv q r.1 with
      | none => rw [hinv] at hs; cases hs
      | some aInv =>
        rw [hinv] at hs
        obtain ⟨hlt, hmul⟩ := Fq.inv_some_spec q r.1 aInv hq1 hr1 hinv
        have hs' : s = (aInv, Fq.new q (q - Fq.mul q r.2 (Fq.mul q aInv aInv))) :=
          (Option.some.inj hs).symm
        subst hs'
        have hq0 : 0 < q := by omega
        refine Prod.ext ?_ ?_
        · exact hmul
        · refine (natCast_zero_iff q _ hq0 (Nat.mod_lt _ hq0)).mp ?_
          rw [ZMod.natCast_mod, Nat.cast_add, Fq.mul_toZ, Fq.mul_toZ, Fq.new_toZ,
            Nat.cast_sub (show Fq.mul q r.2 (Fq.mul q aInv aInv) ≤ q from
              (Nat.mod_lt _ hq0).le),
            ZMod.natCast_self, Fq.mul_toZ, Fq.mul_toZ]
          have h1 : (r.1 : ZMod q) * aInv = 1 := by
            have hc := congrArg (fun n : Nat => (n : ZMod q)) hmul
            simpa [ZMod.natCast_mod] using hc
          linear_combination (-(r.2 : ZMod q) * (aInv : ZMod q)) * h1

/-- Witness for C6: `(5 + 3ε)⁻¹ = 9 + 10ε` over `F₁₁[ε]`. -/
theorem ring_inv_spec_witness :
    Ring.inv 11 (5, 3) = some (9, 10) ∧ Ring.mul 11 (5, 3) (9, 10) = (1, 0) := by
  have hev : Ring.inv 11 (5, 3) = some (9, 10) := by
    simp [Ring.inv, Ring.isInvertible, Fq.inv, egcdLoop, Fq.new, Fq.mul]
  have h := (ring_inv_spec 11 (5, 3) (by norm_num) (by decide)).2.2 (9, 10) hev
  exact ⟨hev, h⟩

/-! ## Claim C5: adding the identity -/

theorem toD_addI_x (q : Nat) (hq : 0 < q) (P Q : Point) :
    toD q (Projective.addI q P Q).x
      = Dsub (Dmul (Dmul (Dmul (toD q P.x) (toD q P.x)) (toD q Q.y)) (toD q Q.z))
        (Dmul (Dmul (Dmul (toD q Q.x) (toD q Q.x)) (toD q P.y)) (toD q P.z)) := by
  simp only [Projective.addI]
  rw [toD_sub _ _ _ (Ring.mul_reduced q hq _ _)]
  simp only [toD_mul]

theorem toD_addI_y (q : Nat) (hq : 0 < q) (P Q : Point) :
    toD q (Projective.addI q P Q).y
      = Dsub (Dmul (Dmul (Dmul (toD q P.z) (toD q P.z)) (toD q Q.x)) (toD q Q.y))
        (Dmul (Dmul (Dmul (toD q Q.z) (toD q Q.z)) (toD q P.x)) (toD q P.y)) := by
  simp only [Projective.addI]
  rw [toD_sub _ _ _ (Ring.mul_reduced q hq _ _)]
  simp only [toD_mul]

theorem toD_addI_z (q : Nat) (hq : 0 < q) (P Q : Point) :
    toD q (Projective.addI q P Q).z
      = Dsub (Dmul (Dmul (Dmul (toD q P.y) (toD q P.y)) (toD q Q.x)) (toD q Q.z))
        (Dmul (Dmul (Dmul (toD q Q.y) (toD q Q.y)) (toD q P.x)) (toD q P.z)) := by
  simp only [Projective.addI]
  rw [toD_sub _ _ _ (Ring.mul_reduced q hq _ _)]
  simp only [toD_mul]

theorem toD_addII_x (q : Nat) (hq : 0 < q) (a : Nat × Nat) (P Q : Point) :
    toD q (Projective.addII q a P Q).x
      = Dsub (Dmul (Dmul (Dmul (toD q Q.z) (toD q Q.z)) (toD q P.x)) (toD q P.z))
        (Dmul (Dmul (Dmul (toD q P.y) (toD q P.y)) (toD q Q.x)) (toD q Q.y)) := by
  simp only [Projective.addII]
  rw [toD_sub _ _ _ (Ring.mul_reduced q hq _ _)]
  simp only [toD_mul]

theorem toD_addII_y (q : Nat) (hq : 0 < q) (a : Nat × Nat) (P Q : Point) :
    toD q (Projective.addII q a P Q).y
      = Dsub (Dmul (Dmul (Dmul (toD q Q.y) (toD q Q.y)) (toD q P.y)) (toD q P.z))
        (Dmul (Dmul (Dmul (toD q a) (Dmul (toD q P.x) (toD q P.x))) (toD q Q.x))
          (toD q Q.z)) := by
  simp only [Projective.addII]
  rw [toD_sub _ _ _ (Ring.mul_reduced q hq _ _)]
  simp only [toD_mul]

theorem toD_addII_z (q : Nat) (hq : 0 < q) (a : Nat × Nat) (P Q : Point) :
    toD q (Projective.addII q a P Q).z
      = Dsub (Dmul (Dmul (Dmul (toD q a) (Dmul (toD q Q.x) (toD q Q.x))) (toD q P.x))
          (toD q P.y))
        (Dmul (Dmul (Dmul (toD q P.z) (toD q P.z)) (toD q Q.y)) (toD q Q.z)) := by
  simp only [Projective.addII]
  rw [toD_sub _ _ _ (Ring.mul_reduced q hq _ _)]
  simp only [toD_mul]

theorem toD_identity_x (q : Nat) :
    toD q (Projective.identity q).x = ((0 : ZMod q), (0 : ZMod q)) := by
  rw [identity_x]
  simp [toD]

theorem toD_identity_y (q : Nat) (hq : 1 < q) :
    toD q (Projective.identity q).y = ((-1 : ZMod q), (0 : ZMod q)) := by
  rw [identity_y q hq]
  simp [toD, cast_q_sub_one q hq]

theorem toD_identity_z (q : Nat) (hq : 1 < q) :
    toD q (Projective.identity q).z = ((1 : ZMod q), (0 : ZMod q)) := by
  rw [identity_z q hq]
  simp [toD]

/-- A point whose coordinates are the `lam`-multiples of `P`'s
coordinates in the dual-number ring passes `is_equal` against `P`. -/
theorem isEqual_smul (q : Nat) (hq : 0 < q) (m P : Point) (lam : ZMod q × ZMod q)
    (hm : m.isZero = false) (hP : P.isZero = false)
    (hx : toD q m.x = Dmul lam (toD q P.x))
    (hy : toD q m.y = Dmul lam (toD q P.y))
    (hz : toD q m.z = Dmul lam (toD q P.z)) :
    Projective.isEqual q m P = some true := by
  refine isEqual_intro q m P hm hP ?_ ?_ ?_
  · refine toD_inj q hq (Ring.mul_reduced q hq _ _) (Ring.mul_reduced q hq _ _) ?_
    rw [toD_mul, toD_mul, hx, hz]
    simp only [Dmul, Prod.mk.injEq]
    exact ⟨by ring, by ring⟩
  · refine toD_inj q hq (Ring.mul_reduced q hq _ _) (Ring.mul_reduced q hq _ _) ?_
    rw [toD_mul, toD_mul, hy, hz]
    simp only [Dmul, Prod.mk.injEq]
    exact ⟨by ring, by ring⟩
  · refine toD_inj q hq (Ring.mul_reduced q hq _ _) (Ring.mul_reduced q hq _ _) ?_
    rw [toD_mul, toD_mul, hz, hx]
    simp only [Dmul, Prod.mk.injEq]
    exact ⟨by ring, by ring⟩

theorem isOnCurve_true_iff (q : Nat) (a d : Nat × Nat) (P : Point) :
    Projective.isOnCurve q a d P = some true ↔
      (Ring.isInvertible (Projective.curveCond q a d) = true ∧
        Projective.curveLhs q a P = Projective.curveRhs q d P) := by
  unfold Projective.isOnCurve
  split
  · rename_i h
    simp [h]
  · rename_i h
    simp [h]

theorem toD_curveLhs (q : Nat) (a : Nat × Nat) (P : Point) :
    toD q (Projective.curveLhs q a P)
      = Dadd (Dadd (Dmul (toD q a)
            (Dmul (Dmul (toD q P.x) (toD q P.x)) (toD q P.x)))
          (Dmul (Dmul (toD q P.y) (toD q P.y)) (toD q P.y)))
        (Dmul (Dmul (toD q P.z) (toD q P.z)) (toD q P.z)) := by
  simp only [Projective.curveLhs, Ring.cube, toD_add, toD_mul]

theorem toD_curveRhs (q : Nat) (d : Nat × Nat) (P : Point) :
    toD q (Projective.curveRhs q d P)
      = Dmul (Dmul (Dmul (toD q d) (toD q P.x)) (toD q P.y)) (toD q P.z) := by
  simp only [Projective.curveRhs, toD_mul]

/-- The branching structure of `Projective::add`, spelled out. -/
theorem add_unfold (q : Nat) (a : Nat × Nat) (P Q : Point) :
    Projective.add q a P Q
      = if (Projective.addI q P Q).isZero
          then (if (Projective.addII q a P Q).isZero
            then none
            else some (Projective.addII q a P Q))
          else some (Projective.addI q P Q) := rfl

theorem point_not_zero (P : Point)
    (hunit : P.x.1 ≠ 0 ∨ P.y.1 ≠ 0 ∨ P.z.1 ≠ 0) : P.isZero = false := by
  simp only [Point.isZero, decide_eq_false_iff_not]
  rintro ⟨c1, c2, c3⟩
  rcases hunit with h | h | h
  · exact h (by rw [c1])
  · exact h (by rw [c2])
  · exact h (by rw [c3])

/-- `P + O` over a valid curve, for `P` on the curve with a unit
coordinate. -/
theorem add_identity_aux_right (q : Nat) (hq : Nat.Prime q) (a d : Nat × Nat)
    (P : Point) (hxr : P.x.1 < q) (hyr : P.y.1 < q) (hzr : P.z.1 < q)
    (honc : Projective.isOnCurve q a d P = some true)
    (hunit : P.x.1 ≠ 0 ∨ P.y.1 ≠ 0 ∨ P.z.1 ≠ 0) :
    ∃ m, Projective.add q a P (Projective.identity q) = some m ∧
      Projective.isEqual q m P = some true := by
  haveI : Fact (Nat.Prime q) := ⟨hq⟩
  have hq1 : 1 < q := hq.one_lt
  have hq0 : 0 < q := by omega
  have hPnz : P.isZero = false := point_not_zero P hunit
  have hIx : toD q (Projective.addI q P (Projective.identity q)).x
      = Dmul (Dneg (toD q P.x)) (toD q P.x) := by
    rw [toD_addI_x q hq0, toD_identity_x, toD_identity_y q hq1,
      toD_identity_z q hq1]
    simp only [Dmul, Dsub, Dneg, Prod.mk.injEq]
    exact ⟨by ring, by ring⟩
  have hIy : toD q (Projective.addI q P (Projective.identity q)).y
      = Dmul (Dneg (toD q P.x)) (toD q P.y) := by
    rw [toD_addI_y q hq0, toD_identity_x, toD_identity_y q hq1,
      toD_identity_z q hq1]
    simp only [Dmul, Dsub, Dneg, Prod.mk.injEq]
    exact ⟨by ring, by ring⟩
  have hIz : toD q (Projective.addI q P (Projective.identity q)).z
      = Dmul (Dneg (toD q P.x)) (toD q P.z) := by
    rw [toD_addI_z q hq0, toD_identity_x, toD_identity_y q hq1,
      toD_identity_z q hq1]
    simp only [Dmul, Dsub, Dneg, Prod.mk.injEq]
    exact ⟨by ring, by ring⟩
  have hIIx : toD q (Projective.addII q a P (Projective.identity q)).x
      = Dmul (toD q P.z) (toD q P.x) := by
    rw [toD_addII_x q hq0, toD_identity_x, toD_identity_y q hq1,
      toD_identity_z q hq1]
    simp only [Dmul, Dsub, Prod.mk.injEq]
    exact ⟨by ring, by ring⟩
  have hIIy : toD q (Projective.addII q a P (Projective.identity q)).y
      = Dmul (toD q P.z) (toD q P.y) := by
    rw [toD_addII_y q hq0, toD_identity_x, toD_identity_y q hq1,
      toD_identity_z q hq1]
    simp only [Dmul, Dsub, Prod.mk.injEq]
    exact ⟨by ring, by ring⟩
  have hIIz : toD q (Projective.addII q a P (Projective.identity q)).z
      = Dmul (toD q P.z) (toD q P.z) := by
    rw [toD_addII_z q hq0, toD_identity_x, toD_identity_y q hq1,
      toD_identity_z q hq1]
    simp only [Dmul, Dsub, Prod.mk.injEq]
    exact ⟨by ring, by ring⟩
  by_cases h1 : (Projective.addI q P (Projective.identity q)).isZero = true
  · have h1' := (isZero_iff _).mp h1
    have z1 : Dmul (Dneg (toD q P.x)) (toD q P.x) = ((0 : ZMod q), (0 : ZMod q)) := by
      rw [← hIx, h1']
      simp [zeroTriple, toD]
    have z2 : Dmul (Dneg (toD q P.x)) (toD q P.y) = ((0 : ZMod q), (0 : ZMod q)) := by
      rw [← hIy, h1']
      simp [zeroTriple, toD]
    have z3 : Dmul (Dneg (toD q P.x)) (toD q P.z) = ((0 : ZMod q), (0 : ZMod q)) := by
      rw [← hIz, h1']
      simp [zeroTriple, toD]
    have hu1 : (P.x.1 : ZMod q) = 0 := by
      have hc := congrArg Prod.fst z1
      simp only [Dmul, Dneg, toD, neg_mul, neg_eq_zero] at hc
      exact mul_self_eq_zero.mp hc
    have huv : (P.x.2 : ZMod q) * (P.y.1 : ZMod q) = 0 := by
      have hc := congrArg Prod.snd z2
      simp only [Dmul, Dneg, toD, hu1, neg_mul, neg_zero, zero_mul, zero_add,
        neg_eq_zero] at hc
      exact hc
    by_cases h2 : (Projective.addII q a P (Projective.identity q)).isZero = true
    · exfalso
      have h2' := (isZero_iff _).mp h2
      have z5 : Dmul (toD q P.z) (toD q P.y) = ((0 : ZMod q), (0 : ZMod q)) := by
        rw [← hIIy, h2']
        simp [zeroTriple, toD]
      have z6 : Dmul (toD q P.z) (toD q P.z) = ((0 : ZMod q), (0 : ZMod q)) := by
        rw [← hIIz, h2']
        simp [zeroTriple, toD]
      have hw1 : (P.z.1 : ZMod q) = 0 := by
        have hc := congrArg Prod.fst z6
        simp only [Dmul, toD] at hc
        exact mul_self_eq_zero.mp hc
      have hwv : (P.z.2 : ZMod q) * (P.y.1 : ZMod q) = 0 := by
        have hc := congrArg Prod.snd z5
        simp only [Dmul, toD, hw1, zero_mul, zero_add] at hc
        exact hc
      have hx1 : P.x.1 = 0 := (natCast_zero_iff q _ hq0 hxr).mp hu1
      have hz1 : P.z.1 = 0 := (natCast_zero_iff q _ hq0 hzr).mp hw1
      have hy1 : P.y.1 ≠ 0 := by
        rcases hunit with h | h | h
        · exact absurd hx1 h
        · exact h
        · exact absurd hz1 h
      have hv1 : (P.y.1 : ZMod q) ≠ 0 :=
        fun hc => hy1 ((natCast_zero_iff q _ hq0 hyr).mp hc)
      obtain ⟨hcinv, hceq⟩ := (isOnCurve_true_iff q a d P).mp honc
      have hcD := congrArg (toD q) hceq
      rw [toD_curveLhs, toD_curveRhs] at hcD
      have hc1 := congrArg Prod.fst hcD
      simp only [Dmul, Dadd, toD, hu1, hw1, mul_zero, zero_mul, add_zero,
        zero_add] at hc1
      have hv0 : (P.y.1 : ZMod q) = 0 := by
        rcases mul_eq_zero.mp hc1 with h | h
        · rcases mul_eq_zero.mp h with h' | h' <;> exact h'
        · exact h
      exact hv1 hv0
    · refine ⟨Projective.addII q a P (Projective.identity q), ?_, ?_⟩
      · rw [add_unfold, if_pos h1, if_neg h2]
      · exact isEqual_smul q hq0 _ P (toD q P.z)
          (Bool.eq_false_iff.mpr h2) hPnz hIIx hIIy hIIz
  · refine ⟨Projective.addI q P (Projective.identity q), ?_, ?_⟩
    · rw [add_unfold, if_neg h1]
    · exact isEqual_smul q hq0 _ P (Dneg (toD q P.x))
        (Bool.eq_false_iff.mpr h1) hPnz hIx hIy hIz

/-- `O + P` over a valid curve, for `P` on the curve with a unit
coordinate. -/
theorem add_identity_aux_left (q : Nat) (hq : Nat.Prime q) (a d : Nat × Nat)
    (P : Point) (hxr : P.x.1 < q) (hyr : P.y.1 < q) (hzr : P.z.1 < q)
    (honc : Projective.isOnCurve q a d P = some true)
    (hunit : P.x.1 ≠ 0 ∨ P.y.1 ≠ 0 ∨ P.z.1 ≠ 0) :
    ∃ m, Projective.add q a (Projective.identity q) P = some m ∧
      Projective.isEqual q m P = some true := by
  haveI : Fact (Nat.Prime q) := ⟨hq⟩
  have hq1 : 1 < q := hq.one_lt
  have hq0 : 0 < q := by omega
  have hPnz : P.isZero = false := point_not_zero P hunit
  have hIx : toD q (Projective.addI q (Projective.identity q) P).x
      = Dmul (toD q P.x) (toD q P.x) := by
    rw [toD_addI_x q hq0, toD_identity_x, toD_identity_y q hq1,
      toD_identity_z q hq1]
    simp only [Dmul, Dsub, Prod.mk.injEq]
    exact ⟨by ring, by ring⟩
  have hIy : toD q (Projective.addI q (Projective.identity q) P).y
      = Dmul (toD q P.x) (toD q P.y) := by
    rw [toD_addI_y q hq0, toD_identity_x, toD_identity_y q hq1,
      toD_identity_z q hq1]
    simp only [Dmul, Dsub, Prod.mk.injEq]
    exact ⟨by ring, by ring⟩
  have hIz : toD q (Projective.addI q (Projective.identity q) P).z
      = Dmul (toD q P.x) (toD q P.z) := by
    rw [toD_addI_z q hq0, toD_identity_x, toD_identity_y q hq1,
      toD_identity_z q hq1]
    simp only [Dmul, Dsub, Prod.mk.injEq]
    exact ⟨by ring, by ring⟩
  have hIIx : toD q (Projective.addII q a (Projective.identity q) P).x
      = Dmul (Dneg (toD q P.y)) (toD q P.x) := by
    rw [toD_addII_x q hq0, toD_identity_x, toD_identity_y q hq1,
      toD_identity_z q hq1]
    simp only [Dmul, Dsub, Dneg, Prod.mk.injEq]
    exact ⟨by ring, by ring⟩
  have hIIy : toD q (Projective.addII q a (Projective.identity q) P).y
      = Dmul (Dneg (toD q P.y)) (toD q P.y) := by
    rw [toD_addII_y q hq0, toD_identity_x, toD_identity_y q hq1,
      toD_identity_z q hq1]
    simp only [Dmul, Dsub, Dneg, Prod.mk.injEq]
    exact ⟨by ring, by ring⟩
  have hIIz : toD q (Projective.addII q a (Projective.identity q) P).z
      = Dmul (Dneg (toD q P.y)) (toD q P.z) := by
    rw [toD_addII_z q hq0, toD_identity_x, toD_identity_y q hq1,
      toD_identity_z q hq1]
    simp only [Dmul, Dsub, Dneg, Prod.mk.injEq]
    exact ⟨by ring, by ring⟩
  by_cases h1 : (Projective.addI q (Projective.identity q) P).isZero = true
  · have h1' := (isZero_iff _).mp h1
    have z1 : Dmul (toD q P.x) (toD q P.x) = ((0 : ZMod q), (0 : ZMod q)) := by
      rw [← hIx, h1']
      simp [zeroTriple, toD]
    have z3 : Dmul (toD q P.x) (toD q P.z) = ((0 : ZMod q), (0 : ZMod q)) := by
      rw [← hIz, h1']
      simp [zeroTriple, toD]
    have hu1 : (P.x.1 : ZMod q) = 0 := by
      have hc := congrArg Prod.fst z1
      simp only [Dmul, toD] at hc
      exact mul_self_eq_zero.mp hc
    have huw : (P.x.2 : ZMod q) * (P.z.1 : ZMod q) = 0 := by
      have hc := congrArg Prod.snd z3
      simp only [Dmul, toD, hu1, zero_mul, zero_add] at hc
      exact hc
    by_cases h2 : (Projective.addII q a (Projective.identity q) P).isZero = true
    · exfalso
      have h2' := (isZero_iff _).mp h2
      have z5 : Dmul (Dneg (toD q P.y)) (toD q P.y) = ((0 : ZMod q), (0 : ZMod q)) := by
        rw [← hIIy, h2']
        simp [zeroTriple, toD]
      have z6 : Dmul (Dneg (toD q P.y)) (toD q P.z) = ((0 : ZMod q), (0 : ZMod q)) := by
        rw [← hIIz, h2']
        simp [zeroTriple, toD]
      have hv1 : (P.y.1 : ZMod q) = 0 := by
        have hc := congrArg Prod.fst z5
        simp only [Dmul, Dneg, toD, neg_mul, neg_eq_zero] at hc
        exact mul_self_eq_zero.mp hc
      have hvw : (P.y.2 : ZMod q) * (P.z.1 : ZMod q) = 0 := by
        have hc := congrArg Prod.snd z6
        simp only [Dmul, Dneg, toD, hv1, neg_mul, neg_zero, zero_mul, zero_add,
          neg_eq_zero] at hc
        exact hc
      have hx1 : P.x.1 = 0 := (natCast_zero_iff q _ hq0 hxr).mp hu1
      have hy1 : P.y.1 = 0 := (natCast_zero_iff q _ hq0 hyr).mp hv1
      have hz1 : P.z.1 ≠ 0 := by
        rcases hunit with h | h | h
        · exact absurd hx1 h
        · exact absurd hy1 h
        · exact h
      have hw1 : (P.z.1 : ZMod q) ≠ 0 :=
        fun hc => hz1 ((natCast_zero_iff q _ hq0 hzr).mp hc)
      obtain ⟨hcinv, hceq⟩ := (isOnCurve_true_iff q a d P).mp honc
      have hcD := congrArg (toD q) hceq
      rw [toD_curveLhs, toD_curveRhs] at hcD
      have hc1 := congrArg Prod.fst hcD
      simp only [Dmul, Dadd, toD, hu1, hv1, mul_zero, zero_mul, add_zero,
        zero_add] at hc1
      have hw0 : (P.z.1 : ZMod q) = 0 := by
        rcases mul_eq_zero.mp hc1 with h | h
        · rcases mul_eq_zero.mp h with h' | h' <;> exact h'
        · exact h
      exact hw1 hw0
    · refine ⟨Projective.addII q a (Projective.identity q) P, ?_, ?_⟩
      · rw [add_unfold, if_pos h1, if_neg h2]
      · exact isEqual_smul q hq0 _ P (Dneg (toD q P.y))
          (Bool.eq_false_iff.mpr h2) hPnz hIIx hIIy hIIz
  · refine ⟨Projective.addI q (Projective.identity q) P, ?_, ?_⟩
    · rw [add_unfold, if_neg h1]
    · exact isEqual_smul q hq0 _ P (toD q P.x)
        (Bool.eq_false_iff.mpr h1) hPnz hIx hIy hIz

/-- C5 as amended.  For a point `P` on a valid curve whose coordinates
include at least one unit of `R` (non-zero constant part), both
`P + O` and `O + P` succeed and are `is_equal` to `P`. -/
theorem add_identity_spec (q : Nat) (hq : Nat.Prime q) (a d : Nat × Nat)
    (P : Point) (hxr : P.x.1 < q) (hyr : P.y.1 < q) (hzr : P.z.1 < q)
    (honc : Projective.isOnCurve q a d P = some true)
    (hunit : P.x.1 ≠ 0 ∨ P.y.1 ≠ 0 ∨ P.z.1 ≠ 0) :
    (∃ m, Projective.add q a P (Projective.identity q) = some m ∧
      Projective.isEqual q m P = some true) ∧
    (∃ m, Projective.add q a (Projective.identity q) P = some m ∧
      Projective.isEqual q m P = some true) :=
  ⟨add_identity_aux_right q hq a d P hxr hyr hzr honc hunit,
    add_identity_aux_left q hq a d P hxr hyr hzr honc hunit⟩

/-- Witness for C5: `P = [1 : 2 : 3+ε]` on the `F₅[ε]` curve. -/
theorem add_identity_spec_witness :
    (∃ m, Projective.add 5 (1, 1) ⟨(1, 0), (2, 0), (3, 1)⟩ (Projective.identity 5)
        = some m ∧
      Projective.isEqual 5 m ⟨(1, 0), (2, 0), (3, 1)⟩ = some true) ∧
    (∃ m, Projective.add 5 (1, 1) (Projective.identity 5) ⟨(1, 0), (2, 0), (3, 1)⟩
        = some m ∧
      Projective.isEqual 5 m ⟨(1, 0), (2, 0), (3, 1)⟩ = some true) :=
  add_identity_spec 5 (by norm_num) (1, 1) (1, 1) ⟨(1, 0), (2, 0), (3, 1)⟩
    (by decide) (by decide) (by decide) (by decide) (by decide)

/-- Counterexample for C5 as stated: `P = [0 : ε : 0]` lies on the valid
`F₅[ε]` curve `a = d = 1 + ε` and is not `[0:0:0]`, yet
`add(P, identity, a)` fails — both formulas yield `[0:0:0]`. -/
theorem add_identity_counterexample :
    Projective.isOnCurve 5 (1, 1) (1, 1) ⟨(0, 0), (0, 1), (0, 0)⟩ = some true ∧
    Point.isZero ⟨(0, 0), (0, 1), (0, 0)⟩ = false ∧
    Projective.add 5 (1, 1) ⟨(0, 0), (0, 1), (0, 0)⟩ (Projective.identity 5)
      = none := by
  decide

/-! ## Claim C4: `point_order` -/

/-- Soundness of the `point_order` loop: it returns `some k` when `k` is
the first order in range passing the loop's double test (`k·P ~ O` and
`(k−1)·P ≁ O`), provided every earlier order lets the loop continue. -/
theorem pointOrderLoop_eq_some (q : Nat) (a d : Nat × Nat) (P : Point) :
    ∀ (fuel start k : Nat), start ≤ k → k < start + fuel →
      Curve.kOrd q a d P k = some true →
      Curve.kOrd q a d P (k - 1) = some false →
      (∀ j, start ≤ j → j < k →
        Curve.kOrd q a d P j = some false ∨
          (Curve.kOrd q a d P j = some true ∧
            Curve.kOrd q a d P (j - 1) = some true)) →
      Curve.pointOrderLoop q a d P start fuel = some k := by
  intro fuel
  induction fuel with
  | zero =>
    intro start k h1 h2 _ _ _
    omega
  | succ n ih =>
    intro start k h1 h2 hk hk1 hcont
    by_cases hsk : start = k
    · subst hsk
      obtain ⟨m, hm, hmeq⟩ := Option.bind_eq_some.mp hk
      obtain ⟨p, hp, hpeq⟩ := Option.bind_eq_some.mp hk1
      simp only [Curve.pointOrderLoop, hm, hmeq, hp, hpeq]
    · have hlt : start < k := by omega
      rcases hcont start (le_refl _) hlt with hc | ⟨hc1, hc2⟩
      · obtain ⟨m, hm, hmeq⟩ := Option.bind_eq_some.mp hc
        simp only [Curve.pointOrderLoop, hm, hmeq]
        exact ih (start + 1) k (by omega) (by omega) hk hk1
          (fun j hj1 hj2 => hcont j (by omega) hj2)
      · obtain ⟨m, hm, hmeq⟩ := Option.bind_eq_some.mp hc1
        obtain ⟨p, hp, hpeq⟩ := Option.bind_eq_some.mp hc2
        simp only [Curve.pointOrderLoop, hm, hmeq, hp, hpeq]
        exact ih (start + 1) k (by omega) (by omega) hk hk1
          (fun j hj1 hj2 => hcont j (by omega) hj2)

/-- The `point_order` loop fails when no order in range passes its
double test (either by exhaustion or by an inner panic). -/
theorem pointOrderLoop_eq_none (q : Nat) (a d : Nat × Nat) (P : Point) :
    ∀ (fuel start : Nat),
      (∀ j, start ≤ j → j < start + fuel →
        ¬(Curve.kOrd q a d P j = some true ∧
          Curve.kOrd q a d P (j - 1) = some false)) →
      Curve.pointOrderLoop q a d P start fuel = none := by
  intro fuel
  induction fuel with
  | zero =>
    intro start _
    rfl
  | succ n ih =>
    intro start h
    cases hm : Curve.scalarMul q a d P start with
    | none => simp only [Curve.pointOrderLoop, hm]
    | some m =>
      cases hme : Projective.isEqual q m (Projective.identity q) with
      | none => simp only [Curve.pointOrderLoop, hm, hme]
      | some b =>
        cases b with
        | false =>
          simp only [Curve.pointOrderLoop, hm, hme]
          exact ih (start + 1) (fun j hj1 hj2 => h j (by omega) (by omega))
        | true =>
          cases hp : Curve.scalarMul q a d P (start - 1) with
          | none => simp only [Curve.pointOrderLoop, hm, hme, hp]
          | some p =>
            cases hpe : Projective.isEqual q p (Projective.identity q) with
            | none => simp only [Curve.pointOrderLoop, hm, hme, hp, hpe]
            | some b2 =>
              cases b2 with
              | true =>
                simp only [Curve.pointOrderLoop, hm, hme, hp, hpe]
                exact ih (start + 1) (fun j hj1 hj2 => h j (by omega) (by omega))
              | false =>
                exfalso
                refine h start (le_refl _) (by omega) ⟨?_, ?_⟩
                · unfold Curve.kOrd
                  rw [hm]
                  simp [hme]
                · unfold Curve.kOrd
                  rw [hp]
                  simp [hpe]

/-- C4 as amended.  On a valid curve: `point_order` returns `1` for a
point `is_equal` to the identity; otherwise, it returns the first
`k ∈ [2, q²]` whose scalar multiple passes **both** loop tests
(`k·P ~ O` and `(k−1)·P ≁ O`, the latter being an extra condition the
claim omits), provided the earlier iterations do not panic; and it fails
when no order in range passes the double test. -/
theorem point_order_spec (q : Nat) (a d : Nat × Nat) (P : Point) (hq : 1 < q)
    (honc : Projective.isOnCurve q a d P = some true) :
    (Projective.isEqual q P (Projective.identity q) = some true →
      Curve.pointOrder q a d P = some 1) ∧
    (∀ k, 2 ≤ k → k ≤ q ^ 2 →
      Curve.kOrd q a d P k = some true →
      Curve.kOrd q a d P (k - 1) = some false →
      (∀ j < k, 2 ≤ j →
        ¬(Curve.kOrd q a d P j = some true ∧
          Curve.kOrd q a d P (j - 1) = some false)) →
      (∀ j < k, 1 ≤ j → Curve.kOrd q a d P j ≠ none) →
      Projective.isEqual q P (Projective.identity q) = some false →
      Curve.pointOrder q a d P = some k) ∧
    ((∀ k, 2 ≤ k → k ≤ q ^ 2 →
        ¬(Curve.kOrd q a d P k = some true ∧
          Curve.kOrd q a d P (k - 1) = some false)) →
      Projective.isEqual q P (Projective.identity q) = some false →
      Curve.pointOrder q a d P = none) := by
  have hpow : 0 < q ^ 2 := pow_pos (by omega) 2
  refine ⟨?_, ?_, ?_⟩
  · intro h
    simp only [Curve.pointOrder, honc, h]
  · intro k hk2 hkq hkt hkf hleast hnn hPO
    simp only [Curve.pointOrder, honc, hPO]
    refine pointOrderLoop_eq_some q a d P (q ^ 2 - 1) 2 k hk2 (by omega) hkt hkf ?_
    intro j hjs hjk
    have hne := hnn j hjk (by omega)
    cases hj : Curve.kOrd q a d P j with
    | none => exact absurd hj hne
    | some b =>
      cases b with
      | false => exact Or.inl rfl
      | true =>
        refine Or.inr ⟨rfl, ?_⟩
        have hne1 := hnn (j - 1) (by omega) (by omega)
        cases hj1 : Curve.kOrd q a d P (j - 1) with
        | none => exact absurd hj1 hne1
        | some b1 =>
          cases b1 with
          | true => exact rfl
          | false => exact absurd ⟨hj, hj1⟩ (hleast j hjk (by omega))

  · intro hno hPO
    simp only [Curve.pointOrder, honc, hPO]
    refine pointOrderLoop_eq_none q a d P (q ^ 2 - 1) 2 ?_
    intro j hj1 hj2
    exact hno j hj1 (by omega)

/-- Counterexample for C4 as stated: over the valid `F₅[ε]` curve
`a = d = 1 + ε`, the on-curve point `P = [ε : 1 : 4+3ε]` is not the
identity, and the least `k ∈ [2, 25]` with `k·P ~ O` is `k = 2` — but
`point_order` does not return `2`, because `1·P` also compares equal to
the identity, so the loop's extra `(k−1)·P ≁ O` test rejects it. -/
theorem point_order_counterexample :
    Projective.isOnCurve 5 (1, 1) (1, 1) ⟨(0, 1), (1, 0), (4, 3)⟩ = some true ∧
    Projective.isEqual 5 ⟨(0, 1), (1, 0), (4, 3)⟩ (Projective.identity 5)
      = some false ∧
    Curve.kOrd 5 (1, 1) (1, 1) ⟨(0, 1), (1, 0), (4, 3)⟩ 2 = some true ∧
    (2 : Nat) ≤ 5 ^ 2 ∧
    Curve.pointOrder 5 (1, 1) (1, 1) ⟨(0, 1), (1, 0), (4, 3)⟩ ≠ some 2 := by
  refine ⟨by decide, by decide, ?_, by decide, ?_⟩
  · simp [Curve.kOrd, Curve.scalarMul, Projective.scalarMul,
      Projective.scalarMulAux, Projective.double, Projective.add,
      Projective.addI, Projective.addII, Projective.identity, Projective.isEqual,
      Projective.isOnCurve, Projective.curveCond, Projective.curveLhs,
      Projective.curveRhs, Ring.cube, Ring.isInvertible, Ring.mul, Ring.add,
      Ring.sub, Ring.fromField, Fq.mul, Fq.add, Fq.sub, Fq.new, Point.isZero,
      Option.bind]
  · simp [Curve.pointOrder, Curve.pointOrderLoop, Curve.kOrd, Curve.scalarMul,
      Projective.scalarMul, Projective.scalarMulAux, Projective.double,
      Projective.add, Projective.addI, Projective.addII, Projective.identity,
      Projective.isEqual, Projective.isOnCurve, Projective.curveCond,
      Projective.curveLhs, Projective.curveRhs, Ring.cube, Ring.isInvertible,
      Ring.mul, Ring.add, Ring.sub, Ring.fromField, Fq.mul, Fq.add, Fq.sub,
      Fq.new, Point.isZero, Option.bind]

/-- Witness for C4: the identity has order `1`, and `[4+2ε : 0 : 1]` has
order `3` on the `F₅[ε]` curve. -/
theorem point_order_spec_witness :
    Curve.pointOrder 5 (1, 1) (1, 1) (Projective.identity 5) = some 1 ∧
    Curve.pointOrder 5 (1, 1) (1, 1) ⟨(4, 2), (0, 0), (1, 0)⟩ = some 3 := by
  have hev1 : Curve.kOrd 5 (1, 1) (1, 1) ⟨(4, 2), (0, 0), (1, 0)⟩ 1
      = some false := by
    simp [Curve.kOrd, Curve.scalarMul, Projective.scalarMul,
      Projective.scalarMulAux, Projective.double, Projective.add,
      Projective.addI, Projective.addII, Projective.identity, Projective.isEqual,
      Projective.isOnCurve, Projective.curveCond, Projective.curveLhs,
      Projective.curveRhs, Ring.cube, Ring.isInvertible, Ring.mul, Ring.add,
      Ring.sub, Ring.fromField, Fq.mul, Fq.add, Fq.sub, Fq.new, Point.isZero,
      Option.bind]
  have hev2 : Curve.kOrd 5 (1, 1) (1, 1) ⟨(4, 2), (0, 0), (1, 0)⟩ 2
      = some false := by
    simp [Curve.kOrd, Curve.scalarMul, Projective.scalarMul,
      Projective.scalarMulAux, Projective.double, Projective.add,
      Projective.addI, Projective.addII, Projective.identity, Projective.isEqual,
      Projective.isOnCurve, Projective.curveCond, Projective.curveLhs,
      Projective.curveRhs, Ring.cube, Ring.isInvertible, Ring.mul, Ring.add,
      Ring.sub, Ring.fromField, Fq.mul, Fq.add, Fq.sub, Fq.new, Point.isZero,
      Option.bind]
  have hev3 : Curve.kOrd 5 (1, 1) (1, 1) ⟨(4, 2), (0, 0), (1, 0)⟩ 3
      = some true := by
    simp [Curve.kOrd, Curve.scalarMul, Projective.scalarMul,
      Projective.scalarMulAux, Projective.double, Projective.add,
      Projective.addI, Projective.addII, Projective.identity, Projective.isEqual,
      Projective.isOnCurve, Projective.curveCond, Projective.curveLhs,
      Projective.curveRhs, Ring.cube, Ring.isInvertible, Ring.mul, Ring.add,
      Ring.sub, Ring.fromField, Fq.mul, Fq.add, Fq.sub, Fq.new, Point.isZero,
      Option.bind]
  constructor
  · exact (point_order_spec 5 (1, 1) (1, 1) (Projective.identity 5) (by decide)
      (by decide)).1 (by decide)
  · refine (point_order_spec 5 (1, 1) (1, 1) ⟨(4, 2), (0, 0), (1, 0)⟩ (by decide)
      (by decide)).2.1 3 (by decide) (by decide) hev3 (by exact hev2)
      ?_ ?_ (by decide)
    · intro j hj hj2
      have hj' : j = 2 := by omega
      subst hj'
      rintro ⟨hc, _⟩
      rw [hev2] at hc
      cases hc
    · intro j hj hj1
      have hj' : j = 1 ∨ j = 2 := by omega
      rcases hj' with h | h <;> subst h
      · intro hc
        rw [hev1] at hc
        cases hc
      · intro hc
        rw [hev2] at hc
        cases hc

/-- Witness for C10 at `q = 5`: the point `[0 : 3 : 2] = 2·[0 : 4 : 1]`. -/
theorem is_identity_spec_witness :
    Projective.isIdentity 5 ⟨(0, 0), (3, 0), (2, 0)⟩ = false ∧
    Projective.isEqual 5 ⟨(0, 0), (3, 0), (2, 0)⟩ (Projective.identity 5)
      = some true := by
  have h := (is_identity_spec 5).2.2 (by decide)
  exact ⟨h.1, h.2⟩

end Hessian
